import Mathlib

/-!
Verification development for the intl-lens translation indexing and
key-resolution engine (Rust workspace `nguyenphutrong/intl-lens`).

The Rust source is shallowly embedded: each definition below mirrors one
function of the source, with Rust machine types replaced as follows.

* `HashMap<String, V>` is modelled as an association list whose `insert`
  overwrites the value of an existing key in place and appends a fresh key
  at the end; only map contents matter to the claims, and the list order
  gives a deterministic canonical representative.
* `DashMap` (the concurrent locale map of `TranslationStore`) is modelled
  the same way; its invariant that locale names are unique appears as a
  `List.Nodup` hypothesis where a claim needs it.
* Rust strings are Lean `String`s except in `truncate_string`, which the
  source defines over `char` iterators and which is therefore modelled over
  `List Char`.
* Filesystem reads (`std::fs::read_to_string(..).ok()`) are modelled by an
  association list from file path to file content passed in explicitly.
* Regex pattern application in `KeyFinder` is kept abstract: the claims
  about `find_keys` quantify over the per-pattern match lists (one list of
  captures per configured pattern, in pattern order), which is exactly the
  data the pooling / sorting / deduplication code of the source consumes.
* Recursive tree walks (the JSON flattener, the PHP lexer, parser and
  flattener) take an explicit fuel argument so that every definition is
  structurally recursive and kernel-reducible; entry points pass a fuel
  that is sufficient for every input (bounded by the input length).
-/

set_option autoImplicit false

/-! ## Translation index (`i18n-lsp/src/i18n/store.rs`) -/

/-- Mirrors `TranslationEntry` (store.rs:10-17); `PathBuf` becomes `String`. -/
structure TranslationEntry where
  key : String
  value : String
  file_path : String
  locale : String
  line : Nat
deriving DecidableEq

/-- Mirrors `TranslationLocation` (store.rs:19-24). -/
structure TranslationLocation where
  file_path : String
  locale : String
  line : Nat
deriving DecidableEq

/-- One locale's map from dotted key to entry (`HashMap<String, TranslationEntry>`). -/
abbrev LocaleMap := List (String × TranslationEntry)

/-- The `translations: DashMap<String, HashMap<String, TranslationEntry>>` field of
`TranslationStore`, as an association list from locale code to locale map. -/
abbrev Store := List (String × LocaleMap)

/-- Mirrors `TranslationStore::key_exists` (store.rs:190-194). -/
def key_exists (st : Store) (key : String) : Bool :=
  st.any (fun le => le.2.any (fun kv => kv.1 == key))

/-- Mirrors `TranslationStore::get_locales` (store.rs:186-188). -/
def get_locales (st : Store) : List String :=
  st.map (fun le => le.1)

/-- Mirrors `self.translations.get(locale)` (a `DashMap` point lookup). -/
def store_get (st : Store) (locale : String) : Option LocaleMap :=
  (st.find? (fun le => le.1 == locale)).map (fun le => le.2)

/-- Mirrors `TranslationStore::get_missing_locales` (store.rs:196-207): every
loaded locale whose map lacks `key`; an unlocatable locale counts as missing
(`unwrap_or(true)`). -/
def get_missing_locales (st : Store) (key : String) : List String :=
  (get_locales st).filter (fun locale =>
    match store_get st locale with
    | some m => !(m.any (fun kv => kv.1 == key))
    | none => true)

/-- Does the character list `cs` start with the pattern `pat`?  Mirrors Rust
`str::starts_with` on the remaining input. -/
def starts_with (cs pat : List Char) : Bool :=
  match pat, cs with
  | [], _ => true
  | _ :: _, [] => false
  | p :: ps, c :: rest => p == c && starts_with rest ps

/-- Substring test; mirrors Rust `str::contains(&str)`. -/
def has_sub (s pat : List Char) : Bool :=
  starts_with s pat ||
    match s with
    | [] => false
    | _ :: rest => has_sub rest pat

/-- `String`-level wrapper for `has_sub`. -/
def contains_sub (s pat : String) : Bool :=
  has_sub s.data pat.data

/-- Splits a character list at every occurrence of `sep`; the single-character
case of Rust `str::split` (and of `String.splitOn`), always non-empty. -/
def split_on_char (sep : Char) : List Char → List (List Char)
  | [] => [[]]
  | c :: rest =>
    match split_on_char sep rest with
    | [] => [[]]
    | seg :: segs => if c == sep then [] :: seg :: segs else (c :: seg) :: segs

/-- Strips one trailing carriage return, as Rust `str::lines` does per line. -/
def strip_cr (line : List Char) : List Char :=
  if line.getLast? == some '\r' then line.dropLast else line

/-- Mirrors Rust `str::lines()`: split on newline, drop a final empty segment
produced by a trailing newline, strip one trailing `\r` per line. -/
def rust_lines (s : List Char) : List (List Char) :=
  match s with
  | [] => []
  | _ =>
    let parts := split_on_char '\n' s
    let parts := if parts.getLast? == some [] then parts.dropLast else parts
    parts.map strip_cr

/-- Index of the first line satisfying the given line predicate, counting from `i`. -/
def find_line_idx (p : List Char → Bool) (i : Nat) : List (List Char) → Option Nat
  | [] => none
  | line :: rest => if p line then some i else find_line_idx p (i + 1) rest

/-- The body of `TranslationStore::find_key_line_in_file` (store.rs:154-174)
after the file read: search the content's lines for the key's last dotted
segment in quoted or `key:` form, returning the first matching 0-based line. -/
def search_key_line (content : String) (key : String) : Option Nat :=
  let last_part := ((split_on_char '.' key.data).getLast?).getD key.data
  let pats := ['"' :: last_part ++ ['"'], '\x27' :: last_part ++ ['\x27'],
    last_part ++ [':', ' '], last_part ++ [':']]
  find_line_idx (fun line => pats.any (fun p => has_sub line p)) 0 (rust_lines content.data)

/-- Models `std::fs::read_to_string(path).ok()` over an explicit filesystem. -/
def read_file (fs : List (String × String)) (path : String) : Option String :=
  (fs.find? (fun f => f.1 == path)).map (fun f => f.2)

/-- Mirrors `TranslationStore::find_key_line_in_file` (store.rs:154-174). -/
def find_key_line_in_file (fs : List (String × String)) (file_path key : String) : Option Nat :=
  (read_file fs file_path).bind (fun content => search_key_line content key)

/-- Mirrors `TranslationStore::get_translation_location` (store.rs:141-152):
if the entry exists, always produce a location, with the line of the
best-effort search defaulting to 0 (`unwrap_or(0)`) when the search fails. -/
def get_translation_location (fs : List (String × String)) (st : Store)
    (key locale : String) : Option TranslationLocation :=
  (store_get st locale).bind (fun m =>
    (m.find? (fun kv => kv.1 == key)).map (fun kv =>
      let line := (find_key_line_in_file fs kv.2.file_path key).getD 0
      { file_path := kv.2.file_path, locale := kv.2.locale, line := line }))

/-- `HashMap::insert` on a locale map: overwrite in place or append. -/
def insert_entry (m : LocaleMap) (k : String) (e : TranslationEntry) : LocaleMap :=
  if m.any (fun kv => kv.1 == k) then
    m.map (fun kv => if kv.1 == k then (k, e) else kv)
  else
    m ++ [(k, e)]

/-- The effect of one `load_translation_file` call (store.rs:88-122) on the
live store: insert every parsed `(key, entry)` pair into the locale's map,
creating the locale map if absent (`entry(locale).or_default()`). -/
def apply_load (st : Store) (op : String × List (String × TranslationEntry)) : Store :=
  if st.any (fun le => le.1 == op.1) then
    st.map (fun le =>
      if le.1 == op.1 then (le.1, op.2.foldl (fun m kv => insert_entry m kv.1 kv.2) le.2)
      else le)
  else
    st ++ [(op.1, op.2.foldl (fun m kv => insert_entry m kv.1 kv.2) [])]

/-- The sequence of states of the live index that `TranslationStore::reload`
(store.rs:209-213) exposes to concurrent readers: the prior state, then the
state right after `self.translations.clear()`, then the state after each
file load performed by `scan_and_load` on the same live map. -/
def reload_states (st : Store) (loads : List (String × List (String × TranslationEntry))) :
    List Store :=
  st :: List.scanl apply_load [] loads

/-- The sequence of values of the shared `translation_store` reference that
`I18nBackend::did_change_watched_files` (intl-lens backend.rs:414-447)
exposes to concurrent readers: the scan populates a local store that is not
reachable through the shared reference, and the only write is the final
single swap `*self.translation_store.write().await = Some(store)`. -/
def did_change_states (shared : Option Store)
    (loads : List (String × List (String × TranslationEntry))) : List (Option Store) :=
  [shared, some (loads.foldl apply_load [])]

/-! ## Usage-site key finder (`intl-lens/src/i18n/key_finder.rs`) -/

/-- Mirrors `FoundKey` (key_finder.rs:3-10). -/
structure FoundKey where
  key : String
  start_offset : Nat
  line : Nat
  start_char : Nat
  end_char : Nat
deriving DecidableEq

/-- Insert `k` after every element whose start offset is `≤ k`'s; folding this
over the pooled matches is a stable sort by start offset, which is the unique
list a stable sort can produce, hence an exact model of the source's
`sort_by_key(|k| k.start_offset)` (Rust's sort is stable). -/
def insert_sorted (k : FoundKey) : List FoundKey → List FoundKey
  | [] => [k]
  | a :: rest =>
    if a.start_offset ≤ k.start_offset then a :: insert_sorted k rest
    else k :: a :: rest

/-- Stable sort of the pooled matches by ascending start offset. -/
def sort_by_start (l : List FoundKey) : List FoundKey :=
  l.foldl (fun acc k => insert_sorted k acc) []

/-- Drop every element whose start offset equals that of the last retained
element; mirrors `dedup_by(|a, b| a.start_offset == b.start_offset)`, which
keeps the first element of each run. -/
def dedup_go (prev : FoundKey) : List FoundKey → List FoundKey
  | [] => []
  | b :: rest =>
    if prev.start_offset == b.start_offset then dedup_go prev rest
    else b :: dedup_go b rest

/-- Entry point of the dedup pass of `find_keys` (key_finder.rs:51). -/
def dedup_by_start : List FoundKey → List FoundKey
  | [] => []
  | a :: rest => a :: dedup_go a rest

/-- Mirrors `KeyFinder::find_keys` (key_finder.rs:26-53) from the point where
the regex engine has produced, for each configured pattern in order, its list
of capture-group matches: pool them in pattern order, sort the pool stably by
ascending start offset, and deduplicate by start offset. -/
def find_keys_from_matches (per_pattern : List (List FoundKey)) : List FoundKey :=
  dedup_by_start (sort_by_start per_pattern.flatten)

/-- The position predicate of `find_key_at_position` (key_finder.rs:64):
same line, and the character inclusively between the start and end columns. -/
def at_position (line char : Nat) (k : FoundKey) : Bool :=
  k.line == line && decide (k.start_char ≤ char) && decide (char ≤ k.end_char)

/-- Mirrors `KeyFinder::find_key_at_position` (key_finder.rs:55-65): re-derive
the full key list and return the first entry containing the position. -/
def find_key_at_position (per_pattern : List (List FoundKey)) (line char : Nat) :
    Option FoundKey :=
  (find_keys_from_matches per_pattern).find? (at_position line char)

/-! ## Diagnostics classifier (`intl-lens/src/backend.rs`) -/

/-- The two LSP severities used by `compute_diagnostics`. -/
inductive Severity where
  | warning
  | hint
deriving DecidableEq

/-- The fields of the LSP `Diagnostic` that `compute_diagnostics` populates. -/
structure Diagnostic where
  line : Nat
  start_char : Nat
  end_char : Nat
  severity : Severity
  code : String
  source : String
  message : String
deriving DecidableEq

/-- Mirrors the per-key loop of `I18nBackend::compute_diagnostics`
(backend.rs:184-244), given the found keys the key finder produced for the
document and a populated store. -/
def compute_diagnostics (st : Store) (found : List FoundKey) : List Diagnostic :=
  found.foldl (fun diags fk =>
    if !(key_exists st fk.key) then
      diags ++ [⟨fk.line, fk.start_char, fk.end_char, .warning, "missing-translation",
        "i18n", "Translation key \x27" ++ fk.key ++ "\x27 not found"⟩]
    else
      let missing_locales := get_missing_locales st fk.key
      if !missing_locales.isEmpty then
        diags ++ [⟨fk.line, fk.start_char, fk.end_char, .hint, "incomplete-translation",
          "i18n", "Translation \x27" ++ fk.key ++ "\x27 missing in: " ++
            String.intercalate ", " missing_locales⟩]
      else diags) []

/-- Mirrors `truncate_string` (backend.rs:14-21); the source counts and takes
`char`s, so the model works on the character list of the string. -/
def truncate_string (s : List Char) (max_chars : Nat) : List Char :=
  if s.length ≤ max_chars then s
  else s.take (max_chars - 3) ++ ['.', '.', '.']

/-! ## JSON value flattener (`intl-lens/src/i18n/parser.rs`, flatten_json) -/

/-- The `serde_json::Value` shape that `flatten_json` consumes.  Numbers are
represented by their canonical textual rendering (`n.to_string()`), which is
the only way the flattener uses them.  `serde_json`'s map preserves no
insertion order and iterates keys in sorted order; a parsed object is
represented by its field list in that iteration order. -/
inductive Json where
  | str (s : String)
  | num (n : String)
  | bool (b : Bool)
  | null
  | arr (items : List Json)
  | obj (fields : List (String × Json))

/-- `HashMap<String, String>::insert`: overwrite in place or append. -/
def insertA (m : List (String × String)) (k v : String) : List (String × String) :=
  if m.any (fun p => p.1 == k) then
    m.map (fun p => if p.1 == k then (k, v) else p)
  else
    m ++ [(k, v)]

mutual

/-- Mirrors `TranslationParser::flatten_json` (parser.rs:44-73).  The fuel
only bounds recursion depth; any fuel larger than the tree depth computes the
source's result. -/
def flatten_json (fuel : Nat) (v : Json) (pfx : String)
    (acc : List (String × String)) : List (String × String) :=
  match fuel with
  | 0 => acc
  | fuel + 1 =>
    match v with
    | .obj fields => flatten_json_fields fuel fields pfx acc
    | .str s => insertA acc pfx s
    | .num n => insertA acc pfx n
    | .bool b => insertA acc pfx (if b then "true" else "false")
    | .arr items => flatten_json_items fuel items 0 pfx acc
    | .null => acc

/-- The object branch of `flatten_json`: child key joined to a non-empty
accumulated prefix with `.`, used bare under the empty prefix. -/
def flatten_json_fields (fuel : Nat) (fields : List (String × Json)) (pfx : String)
    (acc : List (String × String)) : List (String × String) :=
  match fuel with
  | 0 => acc
  | fuel + 1 =>
    match fields with
    | [] => acc
    | (key, v) :: rest =>
      let new_key := if pfx == "" then key else pfx ++ "." ++ key
      flatten_json_fields fuel rest pfx (flatten_json fuel v new_key acc)

/-- The array branch of `flatten_json`: the 0-based index is the path
segment, always joined with `.` (`format!("{}.{}", prefix, i)`). -/
def flatten_json_items (fuel : Nat) (items : List Json) (i : Nat) (pfx : String)
    (acc : List (String × String)) : List (String × String) :=
  match fuel with
  | 0 => acc
  | fuel + 1 =>
    match items with
    | [] => acc
    | v :: rest =>
      let new_key := pfx ++ "." ++ toString i
      flatten_json_items fuel rest (i + 1) pfx (flatten_json fuel v new_key acc)

end

mutual

/-- The flattening rule of spec §4.2 as a pure entry list, written from the
claim's words: object children join the prefix with `.` (bare at the root),
array elements use their 0-based index as the path segment, string / number /
bool leaves stringify at the accumulated prefix, null leaves produce nothing.
Fuelled exactly like `flatten_json` so the two can be compared at any fuel. -/
def flatten_entries (fuel : Nat) (v : Json) (pfx : String) : List (String × String) :=
  match fuel with
  | 0 => []
  | fuel + 1 =>
    match v with
    | .obj fields => flatten_entries_fields fuel fields pfx
    | .str s => [(pfx, s)]
    | .num n => [(pfx, n)]
    | .bool b => [(pfx, if b then "true" else "false")]
    | .arr items => flatten_entries_items fuel items 0 pfx
    | .null => []

/-- Object rule of `flatten_entries`. -/
def flatten_entries_fields (fuel : Nat) (fields : List (String × Json)) (pfx : String) :
    List (String × String) :=
  match fuel with
  | 0 => []
  | fuel + 1 =>
    match fields with
    | [] => []
    | (key, v) :: rest =>
      let new_key := if pfx == "" then key else pfx ++ "." ++ key
      flatten_entries fuel v new_key ++ flatten_entries_fields fuel rest pfx

/-- Array rule of `flatten_entries`. -/
def flatten_entries_items (fuel : Nat) (items : List Json) (i : Nat) (pfx : String) :
    List (String × String) :=
  match fuel with
  | 0 => []
  | fuel + 1 =>
    match items with
    | [] => []
    | v :: rest =>
      let new_key := pfx ++ "." ++ toString i
      flatten_entries fuel v new_key ++ flatten_entries_items fuel rest (i + 1) pfx

end

/-- Insert a list of entries into a map left to right. -/
def insert_all (acc : List (String × String)) (l : List (String × String)) :
    List (String × String) :=
  l.foldl (fun m kv => insertA m kv.1 kv.2) acc

/-! ## PHP array-literal lexer and parser (`intl-lens/src/i18n/parser.rs`) -/

/-- Mirrors `PhpValue` (parser.rs:111-118). -/
inductive PhpValue where
  | str (s : String)
  | num (s : String)
  | bool (b : Bool)
  | null
  | arr (items : List (Option String × PhpValue))

/-- Mirrors `PhpToken` (parser.rs:120-131). -/
inductive PhpToken where
  | lbracket
  | rbracket
  | lparen
  | rparen
  | comma
  | arrow
  | str (s : String)
  | ident (s : String)
  | num (s : String)
deriving DecidableEq

/-- Mirrors `PhpTokenKind` (parser.rs:133-141). -/
inductive PhpTokenKind where
  | lbracket
  | rbracket
  | lparen
  | rparen
  | comma
  | arrow
deriving DecidableEq

/-- Mirrors `token_kind` (parser.rs:431-441). -/
def token_kind : PhpToken → Option PhpTokenKind
  | .lbracket => some .lbracket
  | .rbracket => some .rbracket
  | .lparen => some .lparen
  | .rparen => some .rparen
  | .comma => some .comma
  | .arrow => some .arrow
  | _ => none

/-- Mirrors `PhpLexer::consume_until` (parser.rs:218-226): drop characters up
to and including the first occurrence of the delimiter, or the whole rest. -/
def consume_until (delim : List Char) : List Char → List Char
  | [] => []
  | c :: cs =>
    if starts_with (c :: cs) delim then (c :: cs).drop delim.length
    else consume_until delim cs

/-- Mirrors the loop of `PhpLexer::skip_whitespace_and_comments`
(parser.rs:192-216); each iteration consumes at least one character, so fuel
`length + 1` runs the loop to completion. -/
def skip_ws_comments (fuel : Nat) (cs : List Char) : List Char :=
  match fuel with
  | 0 => cs
  | fuel + 1 =>
    let cs1 := cs.dropWhile (fun c => c.isWhitespace)
    if starts_with cs1 ['/', '/'] then skip_ws_comments fuel (consume_until ['\n'] cs1)
    else if starts_with cs1 ['#'] then skip_ws_comments fuel (consume_until ['\n'] cs1)
    else if starts_with cs1 ['/', '*'] then
      skip_ws_comments fuel (consume_until ['*', '/'] (cs1.drop 2))
    else cs1

/-- Saturated run of `skip_whitespace_and_comments`. -/
def skip_wc (cs : List Char) : List Char :=
  skip_ws_comments (cs.length + 1) cs

/-- Escape mapping of `PhpLexer::read_string` (parser.rs:252-260): `\n`,
`\r`, `\t` decode, everything else (including quotes and backslash) passes
through as itself. -/
def esc_map (c : Char) : Char :=
  if c == 'n' then '\n'
  else if c == 'r' then '\r'
  else if c == 't' then '\t'
  else c

/-- Mirrors `PhpLexer::read_string` (parser.rs:242-269): consume up to the
closing quote (or end of input), decoding escape sequences. -/
def read_string (quote : Char) : List Char → (String × List Char)
  | [] => ("", [])
  | c :: cs =>
    if c == quote then ("", cs)
    else if c == '\\' then
      match cs with
      | [] => ("", [])
      | e :: cs2 =>
        let r := read_string quote cs2
        (String.singleton (esc_map e) ++ r.1, r.2)
    else
      let r := read_string quote cs
      (String.singleton c ++ r.1, r.2)

/-- Character class of `PhpLexer::read_ident` (parser.rs:271-282). -/
def is_ident_char (c : Char) : Bool :=
  c.isAlphanum || c == '_' || c == '-'

/-- Character class of `PhpLexer::read_number` (parser.rs:284-295). -/
def is_number_char (c : Char) : Bool :=
  c.isDigit || c == '.'

/-- Mirrors `PhpLexer::next_token` (parser.rs:153-190).  The recursion on
semicolons and unrecognised characters consumes one character per step, so
fuel `length + 1` suffices. -/
def next_token (fuel : Nat) (cs0 : List Char) : Option (PhpToken × List Char) :=
  match fuel with
  | 0 => none
  | fuel + 1 =>
    let cs := skip_wc cs0
    match cs with
    | [] => none
    | c :: rest =>
      if starts_with cs ['=', '>'] then some (.arrow, cs.drop 2)
      else if c == '[' then some (.lbracket, rest)
      else if c == ']' then some (.rbracket, rest)
      else if c == '(' then some (.lparen, rest)
      else if c == ')' then some (.rparen, rest)
      else if c == ',' then some (.comma, rest)
      else if c == '\x27' || c == '"' then
        let r := read_string c rest
        some (.str r.1, r.2)
      else if c == ';' then next_token fuel rest
      else if c.isDigit || c == '-' then
        some (.num (String.singleton c ++ String.mk (rest.takeWhile is_number_char)),
          rest.dropWhile is_number_char)
      else if c.isAlpha || c == '_' then
        some (.ident (String.singleton c ++ String.mk (rest.takeWhile is_ident_char)),
          rest.dropWhile is_ident_char)
      else next_token fuel rest

/-- Saturated `next_token`. -/
def lex_next (cs : List Char) : Option (PhpToken × List Char) :=
  next_token (cs.length + 1) cs

/-- Parser state: the one-token lookahead and the unconsumed input
(`PhpParser { lexer, lookahead }`, parser.rs:298-301). -/
structure PhpParserState where
  la : Option PhpToken
  rest : List Char

/-- Mirrors `PhpParser::next_token` (parser.rs:401-406). -/
def p_next_token (st : PhpParserState) : Option PhpToken × PhpParserState :=
  match st.la with
  | some t => (some t, { la := none, rest := st.rest })
  | none =>
    match lex_next st.rest with
    | some (t, r) => (some t, { la := none, rest := r })
    | none => (none, st)

/-- Mirrors `PhpParser::peek_token` (parser.rs:394-399). -/
def p_peek_token (st : PhpParserState) : Option PhpToken × PhpParserState :=
  match st.la with
  | some t => (some t, st)
  | none =>
    match lex_next st.rest with
    | some (t, r) => (some t, { la := some t, rest := r })
    | none => (none, st)

/-- Mirrors `PhpParser::peek_kind` (parser.rs:426-428). -/
def p_peek_kind (st : PhpParserState) : Option PhpTokenKind × PhpParserState :=
  let r := p_peek_token st
  (r.1.bind token_kind, r.2)

/-- Mirrors `PhpParser::consume_kind` (parser.rs:417-424). -/
def p_consume_kind (kind : PhpTokenKind) (st : PhpParserState) : Bool × PhpParserState :=
  let r := p_peek_kind st
  if r.1 == some kind then (true, (p_next_token r.2).2)
  else (false, r.2)

/-- Mirrors `PhpParser::expect_kind` (parser.rs:408-415). -/
def p_expect_kind (kind : PhpTokenKind) (st : PhpParserState) :
    Except String PhpParserState :=
  let r := p_peek_kind st
  if r.1 == some kind then .ok (p_next_token r.2).2
  else .error "Expected token kind"

/-- Mirrors `value_to_key` (parser.rs:443-451). -/
def value_to_key : PhpValue → String
  | .str s => s
  | .num s => s
  | .bool b => if b then "true" else "false"
  | .null => ""
  | .arr _ => ""

mutual

/-- Mirrors `PhpParser::parse_array` (parser.rs:325-363): consume the opening
token, determine the matching closer, then run the item loop. -/
def parse_array (fuel : Nat) (st : PhpParserState) :
    Except String (PhpValue × PhpParserState) :=
  match fuel with
  | 0 => .error "out of fuel"
  | fuel + 1 =>
    match p_next_token st with
    | (some .lbracket, st1) => parse_array_items fuel .rbracket [] st1
    | (some (.ident id), st1) =>
      if id == "array" then
        match p_expect_kind .lparen st1 with
        | .ok st2 => parse_array_items fuel .rparen [] st2
        | .error e => .error e
      else .error "Expected array start"
    | _ => .error "Expected array start"

/-- The item loop of `parse_array` (parser.rs:337-360): stop at the closing
token or end of input; parse a value, and on `=>` parse the associated value,
dropping pairs whose stringified key is empty; tolerate a trailing comma. -/
def parse_array_items (fuel : Nat) (end_kind : PhpTokenKind)
    (items : List (Option String × PhpValue)) (st : PhpParserState) :
    Except String (PhpValue × PhpParserState) :=
  match fuel with
  | 0 => .error "out of fuel"
  | fuel + 1 =>
    let pk := p_peek_kind st
    if pk.1 == some end_kind then .ok (.arr items, (p_next_token pk.2).2)
    else
      match p_peek_token pk.2 with
      | (none, st1) => .ok (.arr items, st1)
      | (some _, st1) =>
        match parse_value fuel st1 with
        | .error e => .error e
        | .ok (key_or_value, st2) =>
          let ar := p_consume_kind .arrow st2
          if ar.1 then
            match parse_value fuel ar.2 with
            | .error e => .error e
            | .ok (value, st3) =>
              let key := value_to_key key_or_value
              let items2 := if key == "" then items else items ++ [(some key, value)]
              parse_array_items fuel end_kind items2 (p_consume_kind .comma st3).2
          else
            parse_array_items fuel end_kind (items ++ [(none, key_or_value)])
              (p_consume_kind .comma ar.2).2

/-- Mirrors `PhpParser::parse_value` (parser.rs:365-392). -/
def parse_value (fuel : Nat) (st : PhpParserState) :
    Except String (PhpValue × PhpParserState) :=
  match fuel with
  | 0 => .error "out of fuel"
  | fuel + 1 =>
    match p_peek_token st with
    | (some .lbracket, st1) => parse_array fuel st1
    | (some (.ident id), st1) =>
      if id == "array" then parse_array fuel st1
      else
        let st2 := (p_next_token st1).2
        if id == "true" then .ok (.bool true, st2)
        else if id == "false" then .ok (.bool false, st2)
        else if id == "null" then .ok (.null, st2)
        else .ok (.str id, st2)
    | (some (.str s), st1) => .ok (.str s, (p_next_token st1).2)
    | (some (.num s), st1) => .ok (.num s, (p_next_token st1).2)
    | (some _, st1) =>
      let _ := (p_next_token st1).2
      .error "Unexpected token"
    | (none, _) => .error "Unexpected end of input"

end

/-- Mirrors `PhpParser::parse_root_array` (parser.rs:311-323): skip tokens
until the first `[` or `array`, then parse that array construct. -/
def parse_root_array (fuel : Nat) (st : PhpParserState) :
    Except String (PhpValue × PhpParserState) :=
  match fuel with
  | 0 => .error "out of fuel"
  | fuel + 1 =>
    match p_peek_token st with
    | (some .lbracket, st1) => parse_array fuel st1
    | (some (.ident id), st1) =>
      if id == "array" then parse_array fuel st1
      else parse_root_array fuel (p_next_token st1).2
    | (some _, st1) => parse_root_array fuel (p_next_token st1).2
    | (none, _) => .error "No PHP array found"

mutual

/-- Mirrors `flatten_php` (parser.rs:453-496): scalar leaves insert at a
non-empty prefix only, null produces nothing, arrays walk their items. -/
def flatten_php (fuel : Nat) (v : PhpValue) (pfx : String)
    (acc : List (String × String)) : List (String × String) :=
  match fuel with
  | 0 => acc
  | fuel + 1 =>
    match v with
    | .str s => if pfx == "" then acc else insertA acc pfx s
    | .num s => if pfx == "" then acc else insertA acc pfx s
    | .bool b => if pfx == "" then acc else insertA acc pfx (if b then "true" else "false")
    | .null => acc
    | .arr items => flatten_php_items fuel items 0 pfx acc

/-- The item loop of `flatten_php` (parser.rs:471-494): explicit keys are
used as-is, implicit entries take the running list index; empty path segments
are skipped; the segment joins a non-empty prefix with `.`. -/
def flatten_php_items (fuel : Nat) (items : List (Option String × PhpValue))
    (list_index : Nat) (pfx : String) (acc : List (String × String)) :
    List (String × String) :=
  match fuel with
  | 0 => acc
  | fuel + 1 =>
    match items with
    | [] => acc
    | (key_opt, entry) :: rest =>
      match key_opt with
      | some key =>
        if key == "" then flatten_php_items fuel rest list_index pfx acc
        else
          let new_prefix := if pfx == "" then key else pfx ++ "." ++ key
          flatten_php_items fuel rest list_index pfx (flatten_php fuel entry new_prefix acc)
      | none =>
        let key := toString list_index
        if key == "" then flatten_php_items fuel rest (list_index + 1) pfx acc
        else
          let new_prefix := if pfx == "" then key else pfx ++ "." ++ key
          flatten_php_items fuel rest (list_index + 1) pfx (flatten_php fuel entry new_prefix acc)

end

/-- Mirrors `TranslationParser::parse_php` (parser.rs:22-28): run the
recursive-descent parser on the content and flatten the resulting value from
the empty prefix into an empty map.  The fuel bound `3 * length + 9` covers
any input: every three levels of parser recursion consume at least one
character, and the flatten depth is bounded by the parsed value's depth. -/
def parse_php (content : String) : Except String (List (String × String)) :=
  match parse_root_array (3 * content.data.length + 9) { la := none, rest := content.data } with
  | .ok (v, _) => .ok (flatten_php (3 * content.data.length + 9) v "" [])
  | .error e => .error e

/-! ## Helper lemmas -/

/-- `find?` returns the head of the filtered list. -/
theorem find?_eq_head_filter {α : Type} (p : α → Bool) (l : List α) :
    l.find? p = (l.filter p).head? := by
  induction l with
  | nil => rfl
  | cons a rest ih =>
    by_cases h : p a = true
    · rw [List.find?_cons_of_pos _ h, List.filter_cons_of_pos h]
      rfl
    · rw [List.find?_cons_of_neg _ (by simp [h]), List.filter_cons_of_neg (by simp [h])]
      exact ih

/-- `find?` splits the list at the first hit. -/
theorem find?_some_split {α : Type} (p : α → Bool) (l : List α) (k : α)
    (h : l.find? p = some k) :
    ∃ l1 l2, l = l1 ++ k :: l2 ∧ p k = true ∧ ∀ x ∈ l1, p x = false := by
  induction l with
  | nil => simp [List.find?] at h
  | cons a rest ih =>
    by_cases ha : p a = true
    · rw [List.find?_cons_of_pos _ ha] at h
      injection h with h
      subst h
      exact ⟨[], rest, rfl, ha, by simp⟩
    · rw [List.find?_cons_of_neg _ (by simp [ha])] at h
      simp only [Bool.not_eq_true] at ha
      obtain ⟨l1, l2, hsplit, hk, hmiss⟩ := ih h
      refine ⟨a :: l1, l2, by rw [hsplit]; rfl, hk, ?_⟩
      intro x hx
      rcases List.mem_cons.mp hx with rfl | hx
      · exact ha
      · exact hmiss x hx

/-- With unique locale names, a point lookup of a member's name finds that member. -/
theorem find?_of_nodup (st : Store) (le : String × LocaleMap)
    (hnd : (get_locales st).Nodup) (hmem : le ∈ st) :
    st.find? (fun x => x.1 == le.1) = some le := by
  induction st with
  | nil => cases hmem
  | cons h t ih =>
    simp only [get_locales, List.map_cons, List.nodup_cons] at hnd
    rcases List.mem_cons.mp hmem with rfl | hmem
    · simp [List.find?]
    · have hne : (h.1 == le.1) = false := by
        rw [beq_eq_false_iff_ne]
        intro heq
        exact hnd.1 (heq ▸ List.mem_map_of_mem (fun x => x.1) hmem)
      rw [List.find?, hne]
      exact ih hnd.2 hmem

/-- Keys inserted by `insertA` stay non-empty when the inserted key is. -/
theorem insertA_keys_ne (m : List (String × String)) (k v : String)
    (hm : ∀ p ∈ m, p.1 ≠ "") (hk : k ≠ "") : ∀ p ∈ insertA m k v, p.1 ≠ "" := by
  intro p hp
  unfold insertA at hp
  by_cases hany : m.any (fun p => p.1 == k) = true
  · rw [if_pos hany] at hp
    obtain ⟨q, hq, hqe⟩ := List.mem_map.mp hp
    by_cases hqk : (q.1 == k) = true
    · rw [if_pos hqk] at hqe
      rw [← hqe]
      exact hk
    · rw [Bool.not_eq_true] at hqk
      rw [if_neg (by simp [hqk])] at hqe
      exact hqe ▸ hm q hq
  · rw [if_neg hany] at hp
    rcases List.mem_append.mp hp with hp | hp
    · exact hm p hp
    · rcases List.mem_singleton.mp hp with rfl
      exact hk

/-- Every key `flatten_php` adds to a map of non-empty keys is non-empty:
scalar insertions are guarded by a non-empty prefix, and every path segment
used for an array item is checked non-empty before it extends the prefix. -/
theorem flatten_php_keys_ne (fuel : Nat) :
    (∀ (v : PhpValue) (pfx : String) (acc : List (String × String)),
      (∀ p ∈ acc, p.1 ≠ "") → ∀ p ∈ flatten_php fuel v pfx acc, p.1 ≠ "") ∧
    (∀ (items : List (Option String × PhpValue)) (li : Nat) (pfx : String)
      (acc : List (String × String)),
      (∀ p ∈ acc, p.1 ≠ "") → ∀ p ∈ flatten_php_items fuel items li pfx acc, p.1 ≠ "") := by
  induction fuel with
  | zero =>
    refine ⟨?_, ?_⟩
    · intro v pfx acc hacc p hp
      simp only [flatten_php] at hp
      exact hacc p hp
    · intro items li pfx acc hacc p hp
      simp only [flatten_php_items] at hp
      exact hacc p hp
  | succ fuel ih =>
    obtain ⟨ihv, ihi⟩ := ih
    constructor
    · intro v pfx acc hacc p hp
      match v with
      | .str s =>
        rw [flatten_php] at hp
        by_cases hpfx : (pfx == "") = true
        · rw [if_pos hpfx] at hp; exact hacc p hp
        · rw [if_neg hpfx] at hp
          exact insertA_keys_ne acc pfx s hacc (by simpa using hpfx) p hp
      | .num s =>
        rw [flatten_php] at hp
        by_cases hpfx : (pfx == "") = true
        · rw [if_pos hpfx] at hp; exact hacc p hp
        · rw [if_neg hpfx] at hp
          exact insertA_keys_ne acc pfx s hacc (by simpa using hpfx) p hp
      | .bool b =>
        rw [flatten_php] at hp
        by_cases hpfx : (pfx == "") = true
        · rw [if_pos hpfx] at hp; exact hacc p hp
        · rw [if_neg hpfx] at hp
          exact insertA_keys_ne acc pfx _ hacc (by simpa using hpfx) p hp
      | .null => rw [flatten_php] at hp; exact hacc p hp
      | .arr items =>
        rw [flatten_php] at hp
        exact ihi items 0 pfx acc hacc p hp
    · intro items li pfx acc hacc p hp
      match items with
      | [] => rw [flatten_php_items] at hp; exact hacc p hp
      | (key_opt, entry) :: rest =>
        match key_opt with
        | some key =>
          rw [flatten_php_items] at hp
          by_cases hkey : (key == "") = true
          · rw [if_pos hkey] at hp
            exact ihi rest li pfx acc hacc p hp
          · rw [if_neg hkey] at hp
            exact ihi rest li pfx _ (ihv entry _ acc hacc) p hp
        | none =>
          rw [flatten_php_items] at hp
          by_cases hkey : (toString li == "") = true
          · rw [if_pos hkey] at hp
            exact ihi rest (li + 1) pfx acc hacc p hp
          · rw [if_neg hkey] at hp
            exact ihi rest (li + 1) pfx _ (ihv entry _ acc hacc) p hp

/-! ## Claim C1 -/

/-- C1 counterexample: `TranslationStore::reload` does clear the live index
and repopulate it in place.  For a store holding the key `hi` from a prior
scan, the sequence of states the reload exposes on the live map is the prior
state, then the empty index, then the repopulated index: a concurrent reader
can observe the transient empty state, in which `key_exists "hi"` is false. -/
theorem store_reload_clears_in_place :
    key_exists [("en", [("hi", ⟨"hi", "Hi", "f", "en", 0⟩)])] "hi" = true ∧
    reload_states [("en", [("hi", ⟨"hi", "Hi", "f", "en", 0⟩)])]
        [("en", [("hi", ⟨"hi", "Hi", "f", "en", 0⟩)])] =
      [[("en", [("hi", ⟨"hi", "Hi", "f", "en", 0⟩)])], [],
        [("en", [("hi", ⟨"hi", "Hi", "f", "en", 0⟩)])]] ∧
    key_exists ([] : Store) "hi" = false := by
  exact ⟨by decide, by decide, by decide⟩

/-- C1 (amended): the reload path actually triggered by a file-change event,
`I18nBackend::did_change_watched_files`, builds the replacement store off to
the side and publishes it with a single swap of the shared reference, so a
key present before the reload and present in the fully-built replacement is
visible in every state a concurrent reader can observe. -/
theorem did_change_reload_atomic_swap (old : Store)
    (loads : List (String × List (String × TranslationEntry))) (key : String)
    (h1 : key_exists old key = true)
    (h2 : key_exists (loads.foldl apply_load []) key = true) :
    ∀ os ∈ did_change_states (some old) loads,
      ∃ s, os = some s ∧ key_exists s key = true := by
  intro os hos
  rcases List.mem_cons.mp hos with rfl | hos
  · exact ⟨old, rfl, h1⟩
  · rcases List.mem_singleton.mp hos with rfl
    exact ⟨_, rfl, h2⟩

/-- C1 witness: the atomic-swap theorem applied to a concrete one-key store
and a one-file reload. -/
theorem did_change_reload_atomic_swap_witness :
    ∃ s, (some [("en", [("hi", ⟨"hi", "Hi", "f", "en", 0⟩)])] : Option Store) = some s ∧
      key_exists s "hi" = true :=
  did_change_reload_atomic_swap [("en", [("hi", ⟨"hi", "Hi", "f", "en", 0⟩)])]
    [("en", [("hi", ⟨"hi", "Hi", "f", "en", 0⟩)])] "hi" (by decide) (by decide)
    (some [("en", [("hi", ⟨"hi", "Hi", "f", "en", 0⟩)])]) (by decide)

/-! ## Claim C4 -/

/-- The `serde_json` parse of the document
`\x7b"hello":"Hello","world":"World"\x7d` (an external library call; its map
iterates keys in sorted order, here also the document order). -/
def json_equiv_doc : Json :=
  .obj [("hello", .str "Hello"), ("world", .str "World")]

/-- C4: parsing the array literal `return [\x27hello\x27=>\x27Hello\x27,\x27world\x27=>\x27World\x27];`
with the custom parser and flattening yields exactly the mapping of the JSON
equivalent parsed and flattened by the JSON path (`parse_json` is
`serde_json::from_str` followed by `flatten_json` from the empty prefix). -/
theorem parse_php_matches_json_equivalent :
    parse_php "return [\x27hello\x27=>\x27Hello\x27,\x27world\x27=>\x27World\x27];" =
      .ok (flatten_json 50 json_equiv_doc "" []) ∧
    flatten_json 50 json_equiv_doc "" [] = [("hello", "Hello"), ("world", "World")] :=
  ⟨rfl, rfl⟩

/-! ## Claim C8 -/

/-- C8 counterexample: for a store holding an index entry for key `greet` in
locale `en` whose defining file `f` has content `xyz`, the best-effort line
search finds no line, yet `get_translation_location` does not return "no
location": it returns a location at line 0. -/
theorem get_translation_location_fabricates_line_zero :
    search_key_line "xyz" "greet" = none ∧
    get_translation_location [("f", "xyz")]
        [("en", [("greet", ⟨"greet", "Hi", "f", "en", 0⟩)])] "greet" "en" =
      some ⟨"f", "en", 0⟩ := by
  exact ⟨by decide, by decide⟩

/-- C8 (amended): when an index entry exists but the best-effort line search
over the entry's defining file finds no matching line, the code falls back to
line 0 (`unwrap_or(0)`) and returns a location at line 0 of the defining
file, rather than an error or no location. -/
theorem get_translation_location_line_zero_on_miss
    (fs : List (String × String)) (st : Store) (key locale : String)
    (m : LocaleMap) (kv : String × TranslationEntry)
    (hm : store_get st locale = some m)
    (hkv : m.find? (fun p => p.1 == key) = some kv)
    (hsearch : find_key_line_in_file fs kv.2.file_path key = none) :
    get_translation_location fs st key locale = some ⟨kv.2.file_path, kv.2.locale, 0⟩ := by
  unfold get_translation_location
  rw [hm]
  simp [hkv, hsearch]

/-- C8 witness: the line-0 fallback theorem applied to the concrete store of
the counterexample. -/
theorem get_translation_location_line_zero_on_miss_witness :
    get_translation_location [("f", "xyz")]
        [("en", [("greet", ⟨"greet", "Hi", "f", "en", 0⟩)])] "greet" "en" =
      some ⟨"f", "en", 0⟩ :=
  get_translation_location_line_zero_on_miss [("f", "xyz")]
    [("en", [("greet", ⟨"greet", "Hi", "f", "en", 0⟩)])] "greet" "en"
    [("greet", ⟨"greet", "Hi", "f", "en", 0⟩)]
    ("greet", ⟨"greet", "Hi", "f", "en", 0⟩) (by decide) (by decide) (by decide)

/-! ## Claim C9 -/

/-- C9: every key in a mapping successfully produced by `parse_php` is a
non-empty string: the flattener never stores an entry under an empty dotted
key (and explicit keys that stringify to the empty string are additionally
dropped at parse time). -/
theorem parse_php_keys_nonempty (content : String) (m : List (String × String))
    (h : parse_php content = .ok m) : ∀ p ∈ m, p.1 ≠ "" := by
  unfold parse_php at h
  split at h
  · rename_i v st heq
    have hm : m = flatten_php (3 * content.data.length + 9) v "" [] := by
      injection h with h2
      exact h2.symm
    rw [hm]
    exact (flatten_php_keys_ne (3 * content.data.length + 9)).1 v "" [] (by simp)
  · cases h

/-- C9 witness: `parse_php` on a one-pair array literal, whose single
produced key is non-empty. -/
theorem parse_php_keys_nonempty_witness : ("a", "b").1 ≠ "" :=
  parse_php_keys_nonempty "return [\x27a\x27=>\x27b\x27];" [("a", "b")] rfl
    ("a", "b") (by decide)

/-! ## Claim C10 -/

/-- C10: for `max_chars ≥ 3`, `truncate_string` returns at most `max_chars`
characters, returns the input unchanged exactly when it already has at most
`max_chars` characters, and otherwise returns the first `max_chars - 3`
characters followed by `...`. -/
theorem truncate_string_spec (s : List Char) (max_chars : Nat) (h : 3 ≤ max_chars) :
    (truncate_string s max_chars).length ≤ max_chars ∧
    (truncate_string s max_chars = s ↔ s.length ≤ max_chars) ∧
    (max_chars < s.length →
      truncate_string s max_chars = s.take (max_chars - 3) ++ ['.', '.', '.']) := by
  unfold truncate_string
  by_cases hc : s.length ≤ max_chars
  · rw [if_pos hc]
    exact ⟨hc, by simp [hc], fun hlt => absurd hc (by omega)⟩
  · rw [if_neg hc]
    push_neg at hc
    refine ⟨?_, ?_, fun _ => rfl⟩
    · simp only [List.length_append, List.length_take]
      simp only [List.length_cons, List.length_nil]
      omega
    · constructor
      · intro he
        have hlen := congrArg List.length he
        simp only [List.length_append, List.length_take, List.length_cons,
          List.length_nil] at hlen
        omega
      · intro hle
        omega

/-- C10 witness: the specification applied to a six-character string with
`max_chars = 5`. -/
theorem truncate_string_spec_witness :
    (truncate_string ['a', 'b', 'c', 'd', 'e', 'f'] 5).length ≤ 5 ∧
    (truncate_string ['a', 'b', 'c', 'd', 'e', 'f'] 5 = ['a', 'b', 'c', 'd', 'e', 'f'] ↔
      (['a', 'b', 'c', 'd', 'e', 'f'] : List Char).length ≤ 5) ∧
    (5 < (['a', 'b', 'c', 'd', 'e', 'f'] : List Char).length →
      truncate_string ['a', 'b', 'c', 'd', 'e', 'f'] 5 =
        (['a', 'b', 'c', 'd', 'e', 'f'] : List Char).take (5 - 3) ++ ['.', '.', '.']) :=
  truncate_string_spec ['a', 'b', 'c', 'd', 'e', 'f'] 5 (by decide)

/-! ## Claim C2 -/

/-- C2: `key_exists` is true iff the key is present in some locale's map;
with the `DashMap` invariant of unique locale names, presence somewhere makes
`key_exists` agree with `missing_locales(K).len() < locales.len()`, and
presence nowhere makes `get_missing_locales` return all loaded locales. -/
theorem store_completeness (st : Store) (key : String)
    (hnd : (get_locales st).Nodup) :
    (key_exists st key = true ↔ ∃ le ∈ st, ∃ kv ∈ le.2, kv.1 = key) ∧
    ((∃ le ∈ st, ∃ kv ∈ le.2, kv.1 = key) →
      (key_exists st key = true ↔
        (get_missing_locales st key).length < (get_locales st).length)) ∧
    ((∀ le ∈ st, ∀ kv ∈ le.2, kv.1 ≠ key) →
      get_missing_locales st key = get_locales st) := by
  have hex : key_exists st key = true ↔ ∃ le ∈ st, ∃ kv ∈ le.2, kv.1 = key := by
    simp [key_exists, List.any_eq_true, beq_iff_eq]
  refine ⟨hex, ?_, ?_⟩
  · intro pres
    obtain ⟨le, hle, kv, hkv, hkey⟩ := pres
    have hget : store_get st le.1 = some le.2 := by
      unfold store_get
      rw [find?_of_nodup st le hnd hle]
      rfl
    have hlt : (get_missing_locales st key).length < (get_locales st).length := by
      unfold get_missing_locales
      refine List.length_filter_lt_length_iff_exists.mpr ⟨le.1, List.mem_map_of_mem _ hle, ?_⟩
      have hany : le.2.any (fun kv => kv.1 == key) = true :=
        List.any_eq_true.mpr ⟨kv, hkv, by simp [hkey]⟩
      simp [hget, hany]
    exact iff_of_true (hex.mpr ⟨le, hle, kv, hkv, hkey⟩) hlt
  · intro habs
    unfold get_missing_locales
    apply List.filter_eq_self.mpr
    intro locale hloc
    cases hsg : store_get st locale with
    | none => rfl
    | some m =>
      unfold store_get at hsg
      cases hf : st.find? (fun x => x.1 == locale) with
      | none => rw [hf] at hsg; cases hsg
      | some le =>
        rw [hf] at hsg
        injection hsg with hsg
        have hmeq : le.2 = m := hsg
        subst hmeq
        have hmem : le ∈ st := List.mem_of_find?_eq_some hf
        have hnone : le.2.any (fun kv => kv.1 == key) = false := by
          rw [← Bool.not_eq_true, List.any_eq_true]
          rintro ⟨kv, hkv, hk⟩
          exact habs le hmem kv hkv (by simpa using hk)
        simp [hnone]

/-- C2 witness: the completeness relation applied to a concrete store with
`hi` present in `en` but not in `fr`. -/
theorem store_completeness_witness :
    key_exists [("en", [("hi", ⟨"hi", "Hi", "f", "en", 0⟩)]), ("fr", [])] "hi" = true ↔
      (get_missing_locales [("en", [("hi", ⟨"hi", "Hi", "f", "en", 0⟩)]), ("fr", [])]
        "hi").length <
      (get_locales [("en", [("hi", ⟨"hi", "Hi", "f", "en", 0⟩)]), ("fr", [])]).length :=
  (store_completeness [("en", [("hi", ⟨"hi", "Hi", "f", "en", 0⟩)]), ("fr", [])] "hi"
    (by decide)).2.1 (by decide)

/-! ## Claim C3 -/

/-- A left fold whose step appends a per-element block flattens the mapped
blocks after the initial accumulator. -/
theorem foldl_append_blocks {α β : Type} (step : List β → α → List β) (g : α → List β)
    (hstep : ∀ d x, step d x = d ++ g x) (l : List α) (acc : List β) :
    l.foldl step acc = acc ++ (l.map g).flatten := by
  induction l generalizing acc with
  | nil => simp
  | cons a rest ih =>
    rw [List.foldl_cons, hstep, ih, List.map_cons, List.flatten_cons, List.append_assoc]

/-- C3: the diagnostics computation classifies every found key into exactly
one of three outcomes: one warning diagnostic with code
`missing-translation` on the key's exact range when `key_exists` is false;
else one hint diagnostic with code `incomplete-translation` on the same
range whose message lists exactly the missing locale codes comma-joined when
some locales are missing; else no diagnostic for that key. -/
theorem compute_diagnostics_classification (st : Store) (found : List FoundKey) :
    compute_diagnostics st found = (found.map (fun fk =>
      if key_exists st fk.key = false then
        [(⟨fk.line, fk.start_char, fk.end_char, .warning, "missing-translation", "i18n",
          "Translation key \x27" ++ fk.key ++ "\x27 not found"⟩ : Diagnostic)]
      else if get_missing_locales st fk.key ≠ [] then
        [(⟨fk.line, fk.start_char, fk.end_char, .hint, "incomplete-translation", "i18n",
          "Translation \x27" ++ fk.key ++ "\x27 missing in: " ++
            String.intercalate ", " (get_missing_locales st fk.key)⟩ : Diagnostic)]
      else [])).flatten := by
  unfold compute_diagnostics
  refine (foldl_append_blocks _
    (fun fk =>
      if key_exists st fk.key = false then
        [(⟨fk.line, fk.start_char, fk.end_char, .warning, "missing-translation", "i18n",
          "Translation key \x27" ++ fk.key ++ "\x27 not found"⟩ : Diagnostic)]
      else if get_missing_locales st fk.key ≠ [] then
        [(⟨fk.line, fk.start_char, fk.end_char, .hint, "incomplete-translation", "i18n",
          "Translation \x27" ++ fk.key ++ "\x27 missing in: " ++
            String.intercalate ", " (get_missing_locales st fk.key)⟩ : Diagnostic)]
      else [])
    (fun d fk => ?_) found []).trans (List.nil_append _)
  by_cases hke : key_exists st fk.key = true
  · by_cases hml : get_missing_locales st fk.key = []
    · simp [hke, hml]
    · simp [hke, hml, List.isEmpty_iff]
  · rw [Bool.not_eq_true] at hke
    simp [hke]

/-! ## Claim C6 -/

/-- The fuelled flattener and the pure entry-list rule agree at every fuel:
the imperative insertion walk inserts, left to right, exactly the entries the
recursion rule of §4.2 enumerates. -/
theorem flatten_json_entries_all (fuel : Nat) :
    (∀ (v : Json) (pfx : String) (acc : List (String × String)),
      flatten_json fuel v pfx acc = insert_all acc (flatten_entries fuel v pfx)) ∧
    (∀ (fields : List (String × Json)) (pfx : String) (acc : List (String × String)),
      flatten_json_fields fuel fields pfx acc =
        insert_all acc (flatten_entries_fields fuel fields pfx)) ∧
    (∀ (items : List Json) (i : Nat) (pfx : String) (acc : List (String × String)),
      flatten_json_items fuel items i pfx acc =
        insert_all acc (flatten_entries_items fuel items i pfx)) := by
  induction fuel with
  | zero =>
    refine ⟨?_, ?_, ?_⟩ <;> intros <;> simp [flatten_json, flatten_json_fields,
      flatten_json_items, flatten_entries, flatten_entries_fields, flatten_entries_items,
      insert_all]
  | succ fuel ih =>
    obtain ⟨ihv, ihf, ihi⟩ := ih
    refine ⟨?_, ?_, ?_⟩
    · intro v pfx acc
      cases v <;> simp [flatten_json, flatten_entries, insert_all, ihf, ihi]
    · intro fields pfx acc
      cases fields with
      | nil => simp [flatten_json_fields, flatten_entries_fields, insert_all]
      | cons kv rest =>
        obtain ⟨key, v⟩ := kv
        simp only [flatten_json_fields, flatten_entries_fields]
        rw [ihf, ihv, insert_all, insert_all, insert_all, List.foldl_append]
    · intro items i pfx acc
      cases items with
      | nil => simp [flatten_json_items, flatten_entries_items, insert_all]
      | cons v rest =>
        simp only [flatten_json_items, flatten_entries_items]
        rw [ihi, ihv, insert_all, insert_all, insert_all, List.foldl_append]

/-- C6: the JSON flattener follows the recursion rule — object children join
the accumulated prefix with `.`, array elements use their 0-based index as
the path segment, string/number/bool leaves are inserted (stringified
canonically) at the accumulated prefix, and null leaves produce no entry; in
particular flattening `\x7b"a":null\x7d` yields the empty mapping and
flattening `\x7b"a":["x","y"]\x7d` yields `\x7b"a.0":"x","a.1":"y"\x7d`. -/
theorem flatten_json_rule :
    (∀ (fuel : Nat) (v : Json) (pfx : String) (acc : List (String × String)),
      flatten_json fuel v pfx acc = insert_all acc (flatten_entries fuel v pfx)) ∧
    flatten_json 10 (.obj [("a", .null)]) "" [] = [] ∧
    flatten_json 10 (.obj [("a", .arr [.str "x", .str "y"])]) "" [] =
      [("a.0", "x"), ("a.1", "y")] :=
  ⟨fun fuel => (flatten_json_entries_all fuel).1, by decide, by decide⟩

/-! ## Claim C5 -/

/-- Membership in a stable insertion. -/
theorem mem_insert_sorted (k x : FoundKey) (l : List FoundKey) :
    x ∈ insert_sorted k l ↔ x = k ∨ x ∈ l := by
  induction l with
  | nil => simp [insert_sorted]
  | cons a rest ih =>
    by_cases h : a.start_offset ≤ k.start_offset
    · simp only [insert_sorted, if_pos h, List.mem_cons, ih]
      tauto
    · simp only [insert_sorted, if_neg h, List.mem_cons]

/-- Stable insertion preserves sortedness by start offset. -/
theorem pairwise_insert_sorted (k : FoundKey) (l : List FoundKey)
    (hl : l.Pairwise (fun a b => a.start_offset ≤ b.start_offset)) :
    (insert_sorted k l).Pairwise (fun a b => a.start_offset ≤ b.start_offset) := by
  induction l with
  | nil => simp [insert_sorted]
  | cons a rest ih =>
    rw [List.pairwise_cons] at hl
    obtain ⟨ha, hrest⟩ := hl
    by_cases h : a.start_offset ≤ k.start_offset
    · rw [show insert_sorted k (a :: rest) = a :: insert_sorted k rest by
        simp [insert_sorted, h], List.pairwise_cons]
      refine ⟨?_, ih hrest⟩
      intro b hb
      rcases (mem_insert_sorted k b rest).mp hb with rfl | hb
      · exact h
      · exact ha b hb
    · rw [show insert_sorted k (a :: rest) = k :: a :: rest by
        simp [insert_sorted, h], List.pairwise_cons]
      push_neg at h
      refine ⟨?_, List.pairwise_cons.mpr ⟨ha, hrest⟩⟩
      intro b hb
      rcases List.mem_cons.mp hb with rfl | hb
      · omega
      · have := ha b hb
        omega

/-- Inserting into a sorted list appends the new element at the end of its
start-offset class and leaves the other classes unchanged. -/
theorem filter_insert_sorted (k : FoundKey) (l : List FoundKey) (s : Nat)
    (hl : l.Pairwise (fun a b => a.start_offset ≤ b.start_offset)) :
    (insert_sorted k l).filter (fun a => a.start_offset == s) =
      if (k.start_offset == s) = true then
        l.filter (fun a => a.start_offset == s) ++ [k]
      else l.filter (fun a => a.start_offset == s) := by
  induction l with
  | nil =>
    by_cases hk : (k.start_offset == s) = true <;>
      simp [insert_sorted, List.filter_cons, hk]
  | cons a rest ih =>
    rw [List.pairwise_cons] at hl
    obtain ⟨ha, hrest⟩ := hl
    by_cases h : a.start_offset ≤ k.start_offset
    · rw [show insert_sorted k (a :: rest) = a :: insert_sorted k rest by
        simp [insert_sorted, h]]
      by_cases hk : (k.start_offset == s) = true <;>
        by_cases has : (a.start_offset == s) = true <;>
          simp [List.filter_cons, has, hk, ih hrest]
    · rw [show insert_sorted k (a :: rest) = k :: a :: rest by simp [insert_sorted, h]]
      push_neg at h
      by_cases hk : (k.start_offset == s) = true
      · have hs : k.start_offset = s := by simpa using hk
        have hfilter : (a :: rest).filter (fun x => x.start_offset == s) = [] := by
          rw [List.filter_eq_nil_iff]
          intro x hx
          rcases List.mem_cons.mp hx with rfl | hx
          · simp only [beq_iff_eq]
            omega
          · have := ha x hx
            simp only [beq_iff_eq]
            omega
        simp [List.filter_cons, hk, hfilter]
      · simp [List.filter_cons, hk]

/-- The sorting fold preserves each start-offset class in pool order. -/
theorem filter_sort_fold (l : List FoundKey) (s : Nat) :
    ∀ (acc : List FoundKey),
      acc.Pairwise (fun a b => a.start_offset ≤ b.start_offset) →
      (l.foldl (fun acc k => insert_sorted k acc) acc).filter
          (fun a => a.start_offset == s) =
        acc.filter (fun a => a.start_offset == s) ++
          l.filter (fun a => a.start_offset == s) := by
  induction l with
  | nil => intro acc _; simp
  | cons k rest ih =>
    intro acc hacc
    rw [List.foldl_cons, ih (insert_sorted k acc) (pairwise_insert_sorted k acc hacc),
      filter_insert_sorted k acc s hacc]
    by_cases hk : (k.start_offset == s) = true <;> simp [List.filter_cons, hk]

/-- The sorting fold keeps the list sorted. -/
theorem pairwise_sort_fold (l : List FoundKey) :
    ∀ (acc : List FoundKey),
      acc.Pairwise (fun a b => a.start_offset ≤ b.start_offset) →
      (l.foldl (fun acc k => insert_sorted k acc) acc).Pairwise
        (fun a b => a.start_offset ≤ b.start_offset) := by
  induction l with
  | nil => intro acc hacc; exact hacc
  | cons k rest ih =>
    intro acc hacc
    exact ih (insert_sorted k acc) (pairwise_insert_sorted k acc hacc)

/-- `sort_by_start` is sorted by start offset. -/
theorem sort_by_start_pairwise (l : List FoundKey) :
    (sort_by_start l).Pairwise (fun a b => a.start_offset ≤ b.start_offset) :=
  pairwise_sort_fold l [] (by simp)

/-- `sort_by_start` preserves each start-offset class in pool order. -/
theorem sort_by_start_filter (l : List FoundKey) (s : Nat) :
    (sort_by_start l).filter (fun a => a.start_offset == s) =
      l.filter (fun a => a.start_offset == s) := by
  simpa [sort_by_start] using filter_sort_fold l s [] (by simp)

/-- The sorting fold neither adds nor removes elements. -/
theorem mem_sort_fold (l : List FoundKey) :
    ∀ (acc : List FoundKey) (x : FoundKey),
      (x ∈ l.foldl (fun acc k => insert_sorted k acc) acc ↔ x ∈ acc ∨ x ∈ l) := by
  induction l with
  | nil => intro acc x; simp
  | cons k rest ih =>
    intro acc x
    rw [List.foldl_cons, ih (insert_sorted k acc) x, mem_insert_sorted]
    simp only [List.mem_cons]
    tauto

/-- Membership is preserved by `sort_by_start`. -/
theorem mem_sort_by_start (l : List FoundKey) (x : FoundKey) :
    x ∈ sort_by_start l ↔ x ∈ l := by
  simpa [sort_by_start] using mem_sort_fold l [] x

/-- Elements surviving the dedup pass come from the input. -/
theorem mem_dedup_go (prev : FoundKey) (l : List FoundKey) :
    ∀ x ∈ dedup_go prev l, x ∈ l := by
  induction l generalizing prev with
  | nil => intro x hx; simp [dedup_go] at hx
  | cons b rest ih =>
    intro x hx
    by_cases h : (prev.start_offset == b.start_offset) = true
    · rw [show dedup_go prev (b :: rest) = dedup_go prev rest by simp [dedup_go, h]] at hx
      exact List.mem_cons_of_mem _ (ih prev x hx)
    · rw [show dedup_go prev (b :: rest) = b :: dedup_go b rest by
        simp [dedup_go, h]] at hx
      rcases List.mem_cons.mp hx with rfl | hx
      · exact List.mem_cons_self _ _
      · exact List.mem_cons_of_mem _ (ih b x hx)

/-- On a sorted list, the dedup pass yields strictly increasing start offsets. -/
theorem pairwise_dedup_go (prev : FoundKey) (l : List FoundKey)
    (h : (prev :: l).Pairwise (fun a b => a.start_offset ≤ b.start_offset)) :
    (prev :: dedup_go prev l).Pairwise (fun a b => a.start_offset < b.start_offset) := by
  induction l generalizing prev with
  | nil => simp [dedup_go]
  | cons b rest ih =>
    rw [List.pairwise_cons] at h
    obtain ⟨hprev, hbrest⟩ := h
    by_cases heq : (prev.start_offset == b.start_offset) = true
    · rw [show dedup_go prev (b :: rest) = dedup_go prev rest by simp [dedup_go, heq]]
      apply ih prev
      rw [List.pairwise_cons]
      exact ⟨fun z hz => hprev z (List.mem_cons_of_mem _ hz),
        (List.pairwise_cons.mp hbrest).2⟩
    · rw [show dedup_go prev (b :: rest) = b :: dedup_go b rest by simp [dedup_go, heq]]
      have hne : prev.start_offset ≠ b.start_offset := by simpa using heq
      have hle := hprev b (List.mem_cons_self _ _)
      have ihb := ih b hbrest
      rw [List.pairwise_cons]
      refine ⟨?_, ihb⟩
      intro x hx
      rcases List.mem_cons.mp hx with rfl | hx
      · omega
      · have hxrest : x ∈ rest := mem_dedup_go b rest x hx
        have hble := (List.pairwise_cons.mp hbrest).1 x hxrest
        omega

/-- Every start offset of the input is represented after the dedup pass. -/
theorem dedup_go_covers (prev : FoundKey) (l : List FoundKey)
    (h : (prev :: l).Pairwise (fun a b => a.start_offset ≤ b.start_offset)) :
    ∀ x ∈ l, ∃ y ∈ prev :: dedup_go prev l, y.start_offset = x.start_offset := by
  induction l generalizing prev with
  | nil => intro x hx; cases hx
  | cons b rest ih =>
    intro x hx
    rw [List.pairwise_cons] at h
    obtain ⟨hprev, hbrest⟩ := h
    by_cases heq : (prev.start_offset == b.start_offset) = true
    · rw [show dedup_go prev (b :: rest) = dedup_go prev rest by simp [dedup_go, heq]]
      rcases List.mem_cons.mp hx with rfl | hx
      · exact ⟨prev, List.mem_cons_self _ _, by simpa using heq⟩
      · apply ih prev ?_ x hx
        rw [List.pairwise_cons]
        exact ⟨fun z hz => hprev z (List.mem_cons_of_mem _ hz),
          (List.pairwise_cons.mp hbrest).2⟩
    · rw [show dedup_go prev (b :: rest) = b :: dedup_go b rest by simp [dedup_go, heq]]
      rcases List.mem_cons.mp hx with rfl | hx
      · exact ⟨_, List.mem_cons_of_mem _ (List.mem_cons_self _ _), rfl⟩
      · obtain ⟨y, hy, hys⟩ := ih b hbrest x hx
        rcases List.mem_cons.mp hy with rfl | hy
        · exact ⟨y, List.mem_cons_of_mem _ (List.mem_cons_self _ _), hys⟩
        · exact ⟨y, List.mem_cons_of_mem _ (List.mem_cons_of_mem _ hy), hys⟩

/-- On a sorted list, every survivor of the dedup pass is the first element
of its start-offset class. -/
theorem dedup_go_first (prev : FoundKey) (l : List FoundKey)
    (h : (prev :: l).Pairwise (fun a b => a.start_offset ≤ b.start_offset)) :
    ∀ y ∈ prev :: dedup_go prev l,
      ((prev :: l).filter (fun a => a.start_offset == y.start_offset)).head? = some y := by
  induction l generalizing prev with
  | nil =>
    intro y hy
    simp only [dedup_go, List.mem_singleton] at hy
    subst hy
    simp [List.filter_cons]
  | cons b rest ih =>
    intro y hy
    rw [List.pairwise_cons] at h
    obtain ⟨hprev, hbrest⟩ := h
    by_cases heq : (prev.start_offset == b.start_offset) = true
    · rw [show dedup_go prev (b :: rest) = dedup_go prev rest by simp [dedup_go, heq]] at hy
      have hsub : (prev :: rest).Pairwise (fun a b => a.start_offset ≤ b.start_offset) := by
        rw [List.pairwise_cons]
        exact ⟨fun z hz => hprev z (List.mem_cons_of_mem _ hz),
          (List.pairwise_cons.mp hbrest).2⟩
      have ihy := ih prev hsub y hy
      by_cases hps : (prev.start_offset == y.start_offset) = true
      · have h1 : ((prev :: b :: rest).filter
            (fun a => a.start_offset == y.start_offset)).head? = some prev := by
          simp [List.filter_cons, hps]
        have h2 : ((prev :: rest).filter
            (fun a => a.start_offset == y.start_offset)).head? = some prev := by
          simp [List.filter_cons, hps]
        rw [h1]
        rw [h2] at ihy
        exact ihy
      · have hpbs : prev.start_offset = b.start_offset := by simpa using heq
        have hbs : (b.start_offset == y.start_offset) = false := by
          rw [← hpbs]
          simpa using hps
        rw [show (prev :: b :: rest).filter (fun a => a.start_offset == y.start_offset) =
            (prev :: rest).filter (fun a => a.start_offset == y.start_offset) by
          simp [List.filter_cons, hbs]]
        exact ihy
    · rw [show dedup_go prev (b :: rest) = b :: dedup_go b rest by
        simp [dedup_go, heq]] at hy
      rcases List.mem_cons.mp hy with rfl | hy2
      · simp [List.filter_cons]
      · have ihy := ih b hbrest y hy2
        have hne : prev.start_offset ≠ b.start_offset := by simpa using heq
        have hpb := hprev b (List.mem_cons_self _ _)
        have hby : b.start_offset ≤ y.start_offset := by
          rcases List.mem_cons.mp hy2 with rfl | hy3
          · exact Nat.le_refl _
          · exact (List.pairwise_cons.mp hbrest).1 y (mem_dedup_go b rest y hy3)
        have hps : (prev.start_offset == y.start_offset) = false := by
          simp only [beq_eq_false_iff_ne, ne_eq]
          omega
        rw [show (prev :: b :: rest).filter (fun a => a.start_offset == y.start_offset) =
            (b :: rest).filter (fun a => a.start_offset == y.start_offset) by
          simp [List.filter_cons, hps]]
        exact ihy

/-- C5: `find_keys` pools the per-pattern matches, sorts them by strictly
ascending start offset after dedup, keeps for each start offset exactly the
first pooled match (the earliest-listed pattern's match), and represents
every pooled start offset. -/
theorem find_keys_pooled_spec (per_pattern : List (List FoundKey)) :
    (find_keys_from_matches per_pattern).Pairwise
        (fun a b => a.start_offset < b.start_offset) ∧
    (∀ k ∈ find_keys_from_matches per_pattern,
      per_pattern.flatten.find? (fun a => a.start_offset == k.start_offset) = some k) ∧
    (∀ p ∈ per_pattern.flatten,
      ∃ k ∈ find_keys_from_matches per_pattern, k.start_offset = p.start_offset) := by
  unfold find_keys_from_matches
  cases hsort : sort_by_start per_pattern.flatten with
  | nil =>
    refine ⟨by simp [dedup_by_start], ?_, ?_⟩
    · intro k hk
      simp [dedup_by_start] at hk
    · intro p hp
      exfalso
      have h1 := sort_by_start_filter per_pattern.flatten p.start_offset
      rw [hsort] at h1
      have h2 : p ∈ per_pattern.flatten.filter
          (fun a => a.start_offset == p.start_offset) :=
        List.mem_filter.mpr ⟨hp, by simp⟩
      rw [← h1] at h2
      simp at h2
  | cons a tail =>
    have hpw : (a :: tail).Pairwise (fun a b => a.start_offset ≤ b.start_offset) := by
      rw [← hsort]
      exact sort_by_start_pairwise per_pattern.flatten
    refine ⟨?_, ?_, ?_⟩
    · simpa [dedup_by_start] using pairwise_dedup_go a tail hpw
    · intro k hk
      rw [find?_eq_head_filter, ← sort_by_start_filter per_pattern.flatten k.start_offset,
        hsort]
      exact dedup_go_first a tail hpw k (by simpa [dedup_by_start] using hk)
    · intro p hp
      have hmem : p ∈ a :: tail := by
        rw [← hsort]
        exact (mem_sort_by_start per_pattern.flatten p).mpr hp
      rcases List.mem_cons.mp hmem with rfl | hmem2
      · exact ⟨p, by simp [dedup_by_start], rfl⟩
      · obtain ⟨y, hy, hys⟩ := dedup_go_covers a tail hpw p hmem2
        exact ⟨y, by simpa [dedup_by_start] using hy, hys⟩

/-- C5 witness: two patterns matching at the same start offset 5; the pooled
first (earliest-listed pattern's) match is the survivor `find?` returns. -/
theorem find_keys_pooled_spec_witness :
    ([[(⟨"a", 5, 0, 5, 7⟩ : FoundKey)], [⟨"b", 5, 0, 5, 7⟩]] :
        List (List FoundKey)).flatten.find?
      (fun x => x.start_offset == (⟨"a", 5, 0, 5, 7⟩ : FoundKey).start_offset) =
      some ⟨"a", 5, 0, 5, 7⟩ :=
  (find_keys_pooled_spec [[⟨"a", 5, 0, 5, 7⟩], [⟨"b", 5, 0, 5, 7⟩]]).2.1
    ⟨"a", 5, 0, 5, 7⟩ (by decide)

/-! ## Claim C7 -/

/-- C7: `find_key_at_position` returns the first entry of the full found-key
list whose line matches and whose column range contains the character
inclusively at both ends, and returns none exactly when no entry does. -/
theorem find_key_at_position_spec (per_pattern : List (List FoundKey)) (line char : Nat) :
    (∀ k, find_key_at_position per_pattern line char = some k →
      at_position line char k = true ∧
      ∃ l1 l2, find_keys_from_matches per_pattern = l1 ++ k :: l2 ∧
        ∀ x ∈ l1, at_position line char x = false) ∧
    (find_key_at_position per_pattern line char = none ↔
      ∀ k ∈ find_keys_from_matches per_pattern, at_position line char k = false) := by
  constructor
  · intro k hk
    obtain ⟨l1, l2, hsplit, hpk, hmiss⟩ := find?_some_split _ _ _ hk
    exact ⟨hpk, l1, l2, hsplit, hmiss⟩
  · unfold find_key_at_position
    rw [List.find?_eq_none]
    simp only [Bool.not_eq_true]

/-- C7 witness: the model of the single match in
`const msg = t("hello.world");` — a position inside the quoted literal
returns it, a position outside the quotes returns none. -/
theorem find_key_at_position_spec_witness :
    at_position 0 16 ⟨"hello.world", 15, 0, 15, 26⟩ = true ∧
    find_key_at_position [[⟨"hello.world", 15, 0, 15, 26⟩]] 0 0 = none := by
  constructor
  · exact ((find_key_at_position_spec [[⟨"hello.world", 15, 0, 15, 26⟩]] 0 16).1
      ⟨"hello.world", 15, 0, 15, 26⟩ (by decide)).1
  · exact (find_key_at_position_spec [[⟨"hello.world", 15, 0, 15, 26⟩]] 0 0).2.mpr
      (by decide)
